import Mathlib

/-!
Verification of the IMD memory library (`memory_library.h`).

A value of a fixed-size plain-data type `T` is modelled by its byte window:
the list of its `sizeof(T)` byte cells (naturals below 256), index 0 first in
storage order, exactly the array `reinterpret_cast<const std::byte*>(&value)`.
Each library operation is embedded as a function on windows; operations that
throw are embedded in `Except String`.
-/

namespace IMD

/-- The number of bits in one byte (`BITS_PER_BYTE`). -/
def BITS_PER_BYTE : Nat := 8

/-- A byte window: the ordered byte cells of a value's storage, index 0 first. -/
abbrev Window := List Nat

/-- Every cell of the window is an actual byte value (fits in `unsigned char`). -/
def ValidWindow (w : Window) : Prop := ∀ b ∈ w, b < 256

/-- The bit of window `w` at global bit index `i`: bit `i % 8` of byte cell
`i / 8`, bit 0 being the least-significant bit of the byte. -/
def bitAt (w : Window) (i : Nat) : Bool :=
  (w.getD (i / BITS_PER_BYTE) 0).testBit (i % BITS_PER_BYTE)

/-- The number represented by a window when index 0 holds the least-significant
byte (the library's documented storage order). -/
def toNatLE : Window → Nat
  | [] => 0
  | b :: rest => b + 256 * toNatLE rest

/-- `modify_byte` (memory_library.h lines 130-137): replaces the byte cell at
`index`, throwing before any write when the index is out of range. -/
def modify_byte (w : Window) (index : Nat) (new_byte : Nat) : Except String Window :=
  if index ≥ w.length then
    .error "Byte index is outside the size of the value"
  else
    .ok (w.set index new_byte)

/-- `modify_bit` (memory_library.h lines 140-156): rewrites byte cell
`index / 8`, setting or clearing its bit `index % 8`, throwing before any
write when the index is out of range.  The C++ clear path computes
`byte & ~(1 << bit_index)` after integer promotion; on an 8-bit byte this
is `byte &&& (255 ^^^ (1 <<< bit_index))`. -/
def modify_bit (w : Window) (index : Nat) (new_bit : Bool) : Except String Window :=
  if index ≥ w.length * BITS_PER_BYTE then
    .error "Byte index is outside the size of the value"
  else
    let byte_index := index / BITS_PER_BYTE
    let bit_index := index % BITS_PER_BYTE
    let byte := w.getD byte_index 0
    let byte' := if new_bit then byte ||| (1 <<< bit_index)
      else byte &&& (255 ^^^ (1 <<< bit_index))
    .ok (w.set byte_index byte')

/-- `bytes_to_container` (memory_library.h lines 206-217) with the default
container `std::vector<short>`: each byte cell, a value below 256, cast to a
`short` (exact, no truncation). -/
def bytes_to_container (w : Window) : List Int :=
  w.map (fun b => Int.ofNat b)

/-- `restore_value` (memory_library.h lines 297-308): rebuilds an `N`-byte
window from the first `N` elements of the input range, throwing when fewer
than `N` elements are available; each element is cast to `std::byte`,
i.e. truncated modulo 256. -/
def restore_value (N : Nat) (xs : List Int) : Except String Window :=
  if xs.length < N then
    .error "Not enough bytes to restore value"
  else
    .ok ((xs.take N).map (fun x => (x % 256).toNat))

/-- One iteration per loop pass of `while (byte) { count += byte & 1; byte >>= 1; }`
(the inner loop of `one_bit_count`).  The byte strictly decreases each pass,
so using the byte itself as the fuel bound never cuts the loop short. -/
def popGo : Nat → Nat → Nat
  | _, 0 => 0
  | 0, _ => 0
  | fuel + 1, b => (b &&& 1) + popGo fuel (b >>> 1)

/-- The number of one bits the inner loop of `one_bit_count` counts in one byte. -/
def popcountByte (b : Nat) : Nat := popGo b b

/-- `one_bit_count` (memory_library.h lines 244-258): accumulates, byte by byte,
the count of one bits, consuming each byte until it becomes zero. -/
def one_bit_count (w : Window) : Nat :=
  w.foldl (fun count b => count + popcountByte b) 0

/-- The inner loop of `zero_bit_count`: for each of the 8 bit positions `j`,
count it when `(byte & (1 << j)) == 0`. -/
def zeroBitsByte (b : Nat) : Nat :=
  (List.range BITS_PER_BYTE).countP (fun j => b &&& (1 <<< j) == 0)

/-- `zero_bit_count` (memory_library.h lines 261-274): examines all 8 bit
positions of every byte. -/
def zero_bit_count (w : Window) : Nat :=
  w.foldl (fun count b => count + zeroBitsByte b) 0

/-- The inner loop of `is_power_of_two`: consumes the byte bit by bit,
accumulating the running one-bit count, and answers `none` as soon as the
count exceeds one (the early `return false`); otherwise `some` of the new
running count.  Fuel bounds the pass count as in `popGo`. -/
def ipotGo : Nat → Nat → Nat → Option Nat
  | _, 0, count => some count
  | 0, _, count => some count
  | fuel + 1, b, count =>
    let count' := count + (b &&& 1)
    if count' > 1 then none else ipotGo fuel (b >>> 1) count'

/-- The byte loop of `is_power_of_two`; the final test is `count == 1`. -/
def ipotLoop : Window → Nat → Bool
  | [], count => count == 1
  | b :: rest, count =>
    match ipotGo b b count with
    | none => false
    | some count' => ipotLoop rest count'

/-- `is_power_of_two` (memory_library.h lines 277-294). -/
def is_power_of_two (w : Window) : Bool := ipotLoop w 0

/-- `shift_left_bits` (memory_library.h lines 319-352).  After the guard cases,
byte cells move toward index 0 by `shift / 8` positions (zero-filling the
high-index end); then, when `shift % 8 > 0`, every byte becomes its own bits
shifted up by `shift % 8` joined with the top bits of the byte at the next
lower index (the source iterates indices downward writing in place, so each
write reads only not-yet-written cells: the pass is a pure map over the
intermediate array).  The store into `std::byte` truncates modulo 256. -/
def shift_left_bits (w : Window) (shift : Nat) : Window :=
  if shift = 0 then w
  else if shift ≥ w.length * BITS_PER_BYTE then List.replicate w.length 0
  else
    let byte_shift := shift / BITS_PER_BYTE
    let bit_shift := shift % BITS_PER_BYTE
    let w1 := if byte_shift > 0
      then w.drop byte_shift ++ List.replicate byte_shift 0
      else w
    if bit_shift > 0 then
      (List.range w1.length).map (fun index =>
        let current := w1.getD index 0
        let next := if index > 0 then w1.getD (index - 1) 0 else 0
        ((current <<< bit_shift) ||| (next >>> (BITS_PER_BYTE - bit_shift))) % 256)
    else w1

/-- `shift_right_bits` (memory_library.h lines 354-384).  After the guard
cases, byte cells move toward the high-index end by `shift / 8` positions
(zero-filling the low-index end); then, when `shift % 8 > 0`, every byte
becomes its own bits shifted down by `shift % 8` joined with the low bits of
the byte at the next higher index (the source iterates indices upward writing
in place, so each write reads only not-yet-written cells). -/
def shift_right_bits (w : Window) (shift : Nat) : Window :=
  if shift = 0 then w
  else if shift ≥ w.length * BITS_PER_BYTE then List.replicate w.length 0
  else
    let byte_shift := shift / BITS_PER_BYTE
    let bit_shift := shift % BITS_PER_BYTE
    let w1 := if byte_shift > 0
      then List.replicate byte_shift 0 ++ w.take (w.length - byte_shift)
      else w
    if bit_shift > 0 then
      (List.range w1.length).map (fun i =>
        let current := w1.getD i 0
        let previous := if i + 1 < w1.length then w1.getD (i + 1) 0 else 0
        ((current >>> bit_shift) ||| (previous <<< (BITS_PER_BYTE - bit_shift))) % 256)
    else w1

/-- The one-character string `std::to_string((byte >> j) & 1)` appended for
bit `j` of byte `b` by both bit-rendering operations. -/
def bitChar (b j : Nat) : String := toString ((b >>> j) &&& 1)

/-- `bits_to_string` (memory_library.h lines 190-203): per byte in storage
order, the bit digits for `j = 0` up to `j = 7`, then the separator. -/
def bits_to_string (w : Window) (separator : String) : String :=
  w.foldl (fun result b =>
    ((List.range BITS_PER_BYTE).foldl (fun r j => r ++ bitChar b j) result) ++ separator) ""

/-- The text `print_bits` (memory_library.h lines 84-92) writes to the output
stream: per byte in storage order, the bit digits for `j = 7` down to
`j = 0`, then the separator. -/
def print_bits (w : Window) (separator : String) : String :=
  w.foldl (fun result b =>
    (((List.range BITS_PER_BYTE).reverse).foldl (fun r j => r ++ bitChar b j) result) ++ separator) ""

/-- The bit digit of byte `b` at position `j`, stated by the spec: the
character of the addressed bit. -/
def specDigit (b j : Nat) : Char := if b.testBit j then '1' else '0'

/-- Stated by the spec: the 8 bit digits of one byte, least-significant bit
first (bit 0 up to bit 7). -/
def specLsbDigits (b : Nat) : String :=
  ⟨(List.range 8).map (fun j => specDigit b j)⟩

/-- Stated by the spec: the 8 bit digits of one byte, most-significant bit
first (bit 7 down to bit 0). -/
def specMsbDigits (b : Nat) : String :=
  ⟨((List.range 8).reverse).map (fun j => specDigit b j)⟩

/-- Unfolding equation for the bits-per-byte constant. -/
theorem bpb_eq : BITS_PER_BYTE = 8 := rfl

/-- Casting the byte cells to `short` and truncating back to bytes is the
identity on a valid window. -/
theorem bytes_container_mod (w : Window) (hv : ValidWindow w) :
    (bytes_to_container w).map (fun x => (x % 256).toNat) = w := by
  induction w with
  | nil => rfl
  | cons b t ih =>
    have hb : b < 256 := hv b (List.mem_cons_self b t)
    have ht : ValidWindow t := fun x hx => hv x (List.mem_cons_of_mem b hx)
    show ((Int.ofNat b) % 256).toNat :: (bytes_to_container t).map (fun x => (x % 256).toNat) = b :: t
    rw [ih ht]
    congr 1
    rw [Int.ofNat_eq_coe]
    omega

/-- C2: applying `shift_left_bits` with `k = 8` to storage bytes
`[58, 1, 0, 0]` yields `[1, 0, 0, 0]`: byte cells shift toward index 0 and
the high-index end is zero-filled. -/
theorem claim2_shift_left_scenario : shift_left_bits [58, 1, 0, 0] 8 = [1, 0, 0, 0] := by
  decide

/-- C3: for every valid window, `restore_value` applied to the container
produced by `bytes_to_container` reconstructs the window byte for byte. -/
theorem claim3_restore_roundtrip (w : Window) (hv : ValidWindow w) :
    restore_value w.length (bytes_to_container w) = .ok w := by
  have hlen : (bytes_to_container w).length = w.length := by
    rw [bytes_to_container, List.length_map]
  unfold restore_value
  rw [hlen, if_neg (Nat.lt_irrefl w.length), ← hlen, List.take_length,
    bytes_container_mod w hv]

/-- Witness for C3 at the spec's four-byte scenario window. -/
theorem claim3_restore_roundtrip_witness :
    restore_value 4 (bytes_to_container [58, 1, 0, 0]) = .ok [58, 1, 0, 0] :=
  claim3_restore_roundtrip [58, 1, 0, 0] (by unfold ValidWindow; decide)

/-- C4: for `k ≥ N*8` both shifts yield the all-zero window, and for `k = 0`
both leave the window unchanged. -/
theorem claim4_shift_saturate_and_zero (w : Window) (k : Nat) :
    (w.length * 8 ≤ k →
      shift_left_bits w k = List.replicate w.length 0 ∧
      shift_right_bits w k = List.replicate w.length 0) ∧
    shift_left_bits w 0 = w ∧ shift_right_bits w 0 = w := by
  refine ⟨fun h => ⟨?_, ?_⟩, ?_, ?_⟩
  · unfold shift_left_bits
    rcases Nat.eq_zero_or_pos k with hk | hk
    · subst hk
      have hw : w = [] := List.length_eq_zero.mp (by omega)
      subst hw
      rfl
    · rw [if_neg (by omega), if_pos (show k ≥ w.length * BITS_PER_BYTE by
        rw [bpb_eq]; omega)]
  · unfold shift_right_bits
    rcases Nat.eq_zero_or_pos k with hk | hk
    · subst hk
      have hw : w = [] := List.length_eq_zero.mp (by omega)
      subst hw
      rfl
    · rw [if_neg (by omega), if_pos (show k ≥ w.length * BITS_PER_BYTE by
        rw [bpb_eq]; omega)]
  · unfold shift_left_bits
    rw [if_pos rfl]
  · unfold shift_right_bits
    rw [if_pos rfl]

/-- Witness for C4 at the spec's scenario window, with `k = 99` and `k = 0`. -/
theorem claim4_shift_saturate_and_zero_witness :
    shift_left_bits [58, 1, 0, 0] 99 = [0, 0, 0, 0] ∧
    shift_right_bits [58, 1, 0, 0] 99 = [0, 0, 0, 0] ∧
    shift_left_bits [58, 1, 0, 0] 0 = [58, 1, 0, 0] ∧
    shift_right_bits [58, 1, 0, 0] 0 = [58, 1, 0, 0] := by
  have h := claim4_shift_saturate_and_zero [58, 1, 0, 0] 99
  exact ⟨(h.1 (by decide)).1, (h.1 (by decide)).2, h.2.1, h.2.2⟩

/-- C5: `modify_byte` replaces exactly byte cell `index` when `index < N`;
when `index ≥ N` it fails with the range error, the check preceding any
write. -/
theorem claim5_modify_byte (w : Window) (index b : Nat) :
    (index < w.length → ∃ w', modify_byte w index b = .ok w' ∧
      w'.length = w.length ∧ w'.getD index 0 = b ∧
      ∀ j, j ≠ index → w'.getD j 0 = w.getD j 0) ∧
    (w.length ≤ index →
      modify_byte w index b = .error "Byte index is outside the size of the value") := by
  constructor
  · intro h
    refine ⟨w.set index b, ?_, List.length_set w index b, ?_, ?_⟩
    · unfold modify_byte
      rw [if_neg (by omega)]
    · rw [List.getD_eq_getElem?_getD, List.getElem?_set_self h]
      rfl
    · intro j hj
      rw [List.getD_eq_getElem?_getD, List.getElem?_set_ne (fun e => hj e.symm),
        ← List.getD_eq_getElem?_getD]
  · intro h
    unfold modify_byte
    rw [if_pos (by omega)]

/-- Witness for C5: an in-range and an out-of-range byte replacement. -/
theorem claim5_modify_byte_witness :
    modify_byte [5, 6] 2 7 = .error "Byte index is outside the size of the value" ∧
    modify_byte [5, 6] 0 7 = .ok [7, 6] :=
  ⟨(claim5_modify_byte [5, 6] 2 7).2 (by decide), rfl⟩

/-- Every one of the 8 low bit positions of the byte mask 255 is set. -/
theorem testBit_255 (j : Nat) (h : j < 8) : Nat.testBit 255 j = true := by
  revert j
  decide

/-- C6: `modify_bit` with `index < N*8` rewrites exactly the bit at byte cell
`index / 8`, bit position `index % 8`; every other bit of the window is
bit-for-bit unchanged. -/
theorem claim6_modify_bit_frame (w : Window) (index : Nat) (nb : Bool)
    (h : index < w.length * 8) :
    ∃ w', modify_bit w index nb = .ok w' ∧ w'.length = w.length ∧
      bitAt w' index = nb ∧ ∀ i, i ≠ index → bitAt w' i = bitAt w i := by
  refine ⟨w.set (index / BITS_PER_BYTE)
    (if nb then (w.getD (index / BITS_PER_BYTE) 0) ||| (1 <<< (index % BITS_PER_BYTE))
      else (w.getD (index / BITS_PER_BYTE) 0) &&& (255 ^^^ (1 <<< (index % BITS_PER_BYTE)))),
    ?_, List.length_set _ _ _, ?_, ?_⟩
  · unfold modify_bit
    rw [if_neg (show ¬ index ≥ w.length * BITS_PER_BYTE by rw [bpb_eq]; omega)]
  · unfold bitAt
    rw [bpb_eq, List.getD_eq_getElem?_getD,
      List.getElem?_set_self (show index / 8 < w.length by omega), Nat.one_shiftLeft]
    have hj : index % 8 < 8 := Nat.mod_lt index (by norm_num)
    cases nb with
    | true =>
      simp [Nat.testBit_or, Nat.testBit_two_pow_self]
    | false =>
      simp [Nat.testBit_and, Nat.testBit_xor, Nat.testBit_two_pow_self,
        testBit_255 _ hj]
  · intro i hi
    unfold bitAt
    rw [bpb_eq, List.getD_eq_getElem?_getD, List.getD_eq_getElem?_getD]
    by_cases hbi : i / 8 = index / 8
    · rw [hbi, List.getElem?_set_self (show index / 8 < w.length by omega),
        Nat.one_shiftLeft]
      have hne : index % 8 ≠ i % 8 := by omega
      have hlt : i % 8 < 8 := Nat.mod_lt i (by norm_num)
      rw [← hbi, List.getD_eq_getElem?_getD]
      cases nb with
      | true =>
        simp [Nat.testBit_or, Nat.testBit_two_pow_of_ne hne, hbi]
      | false =>
        simp [Nat.testBit_and, Nat.testBit_xor, Nat.testBit_two_pow_of_ne hne,
          testBit_255 _ hlt, hbi]
    · rw [List.getElem?_set_ne (fun e => hbi (by omega)), ← List.getD_eq_getElem?_getD]

/-- Witness for C6: clearing bit 3 of `[255, 0]` yields `[247, 0]`, touching
no other bit. -/
theorem claim6_modify_bit_frame_witness :
    bitAt [247, 0] 3 = false ∧ bitAt [247, 0] 0 = bitAt [255, 0] 0 := by
  obtain ⟨w', h1, -, h3, h4⟩ := claim6_modify_bit_frame [255, 0] 3 false (by decide)
  have hw : w' = [247, 0] :=
    Except.ok.inj (h1.symm.trans (rfl : modify_bit [255, 0] 3 false = .ok [247, 0]))
  subst hw
  exact ⟨h3, h4 0 (by decide)⟩

/-- C10: `restore_value` reads exactly the first `N` elements of its input,
truncating each modulo 256; inputs agreeing on their first `N` elements give
identical results. -/
theorem claim10_restore_first_n (N : Nat) (xs ys : List Int) (h : N ≤ xs.length) :
    restore_value N xs = .ok ((xs.take N).map (fun x => (x % 256).toNat)) ∧
    (∀ w', restore_value N xs = .ok w' → w'.length = N ∧
      ∀ i, i < N → w'.getD i 0 = ((xs.getD i 0) % 256).toNat) ∧
    (N ≤ ys.length → xs.take N = ys.take N → restore_value N xs = restore_value N ys) := by
  have hformula : restore_value N xs = .ok ((xs.take N).map (fun x => (x % 256).toNat)) := by
    unfold restore_value
    rw [if_neg (by omega)]
  refine ⟨hformula, ?_, ?_⟩
  · intro w' hw
    rw [hformula] at hw
    obtain rfl := Except.ok.inj hw
    constructor
    · rw [List.length_map, List.length_take]
      omega
    · intro i hi
      rw [List.getD_eq_getElem?_getD, List.getElem?_map, List.getD_eq_getElem?_getD,
        List.getElem?_take, if_pos hi, List.getElem?_eq_getElem (show i < xs.length by omega)]
      rfl
  · intro hy he
    rw [hformula]
    unfold restore_value
    rw [if_neg (by omega), he]

/-- Witness for C10: two inputs agreeing on their first two elements, one
holding an element above 255 and one a negative element. -/
theorem claim10_restore_first_n_witness :
    restore_value 2 [300, -1, 7] = .ok [44, 255] ∧
    restore_value 2 [300, -1, 7] = restore_value 2 [300, -1, -5] := by
  have h := claim10_restore_first_n 2 [300, -1, 7] [300, -1, -5] (by decide)
  refine ⟨?_, h.2.2 (by decide) (by decide)⟩
  rw [h.1]
  rfl

set_option maxRecDepth 4096 in
/-- Every byte satisfies: one-bit count plus zero-bit count is 8. -/
theorem byte_counts (b : Nat) (h : b < 256) : popcountByte b + zeroBitsByte b = 8 := by
  revert b
  decide

/-- Accumulating a per-byte count with `foldl` sums the per-byte counts. -/
theorem foldl_add_count (f : Nat → Nat) (w : List Nat) (a : Nat) :
    w.foldl (fun c b => c + f b) a = a + (w.map f).sum := by
  induction w generalizing a with
  | nil => simp
  | cons b t ih =>
    rw [List.foldl_cons, ih (a + f b), List.map_cons, List.sum_cons]
    omega

/-- Summed over a valid window, the two per-byte counters complement each
other to 8 bits per byte. -/
theorem sum_counts (w : Window) (hv : ValidWindow w) :
    (w.map popcountByte).sum + (w.map zeroBitsByte).sum = w.length * 8 := by
  induction w with
  | nil => rfl
  | cons b t ih =>
    have hb : b < 256 := hv b (List.mem_cons_self b t)
    have ht : ValidWindow t := fun x hx => hv x (List.mem_cons_of_mem b hx)
    have hbc := byte_counts b hb
    have hs := ih ht
    simp only [List.map_cons, List.sum_cons, List.length_cons]
    omega

/-- The early-exit inner loop of `is_power_of_two` agrees with the plain
bit-count of the byte: it yields the updated running count unless the total
passes one, in which case it reports failure. -/
theorem ipotGo_popGo (fuel : Nat) : ∀ b c, c ≤ 1 →
    ipotGo fuel b c = (if c + popGo fuel b ≤ 1 then some (c + popGo fuel b) else none) := by
  induction fuel with
  | zero =>
    intro b c hc
    cases b with
    | zero => simp [ipotGo, popGo, hc]
    | succ b => simp [ipotGo, popGo, hc]
  | succ fuel ih =>
    intro b c hc
    cases b with
    | zero => simp [ipotGo, popGo, hc]
    | succ b =>
      show (if c + ((b + 1) &&& 1) > 1 then none
        else ipotGo fuel ((b + 1) >>> 1) (c + ((b + 1) &&& 1))) = _
      have hm : (b + 1) &&& 1 ≤ 1 := by
        rw [Nat.and_one_is_mod]
        omega
      have hpop : popGo (fuel + 1) (b + 1) = ((b + 1) &&& 1) + popGo fuel ((b + 1) >>> 1) := rfl
      by_cases hgt : c + ((b + 1) &&& 1) > 1
      · rw [if_pos hgt, hpop, if_neg (by omega)]
      · rw [if_neg hgt, ih _ _ (by omega), hpop]
        by_cases hle : c + ((b + 1) &&& 1) + popGo fuel ((b + 1) >>> 1) ≤ 1
        · rw [if_pos hle, if_pos (by omega)]
          congr 1
          omega
        · rw [if_neg hle, if_neg (by omega)]

/-- The byte loop of `is_power_of_two` answers whether the running count plus
the remaining one-bit count is exactly one. -/
theorem ipotLoop_decide (w : Window) : ∀ c, c ≤ 1 →
    ipotLoop w c = decide (c + (w.map popcountByte).sum = 1) := by
  induction w with
  | nil =>
    intro c hc
    interval_cases c <;> rfl
  | cons b t ih =>
    intro c hc
    show (match ipotGo b b c with
      | none => false
      | some c' => ipotLoop t c') = _
    rw [ipotGo_popGo b b c hc]
    by_cases hle : c + popGo b b ≤ 1
    · rw [if_pos hle]
      show ipotLoop t (c + popGo b b) = _
      rw [ih _ (by omega)]
      have hs : c + popGo b b + (t.map popcountByte).sum
          = c + ((b :: t).map popcountByte).sum := by
        simp [popcountByte]
        omega
      rw [hs]
    · rw [if_neg hle]
      show false = _
      have hne : c + (popcountByte b + (t.map popcountByte).sum) ≠ 1 := by
        unfold popcountByte
        omega
      simp [hne]

/-- The structural power-of-two test coincides with the one-bit population
count being one. -/
theorem is_power_of_two_char (v : Window) :
    is_power_of_two v = decide (one_bit_count v = 1) := by
  unfold is_power_of_two one_bit_count
  rw [ipotLoop_decide v 0 (by omega), foldl_add_count popcountByte v 0]

/-- C8: `is_power_of_two` is true exactly when the window holds exactly one
one bit, and in particular is false on the all-zero window. -/
theorem claim8_power_of_two (w : Window) :
    is_power_of_two w = decide (one_bit_count w = 1) ∧
    is_power_of_two (List.replicate w.length 0) = false := by
  refine ⟨is_power_of_two_char w, ?_⟩
  rw [is_power_of_two_char (List.replicate w.length 0)]
  have h0 : one_bit_count (List.replicate w.length 0) = 0 := by
    unfold one_bit_count
    rw [foldl_add_count popcountByte _ 0, Nat.zero_add, List.map_replicate,
      (rfl : popcountByte 0 = 0)]
    simp
    exact Or.inr rfl
  simp [h0]

/-- C9: the two population counters always sum to the window bit length. -/
theorem claim9_bit_counts (w : Window) (hv : ValidWindow w) :
    one_bit_count w + zero_bit_count w = w.length * 8 := by
  unfold one_bit_count zero_bit_count
  rw [foldl_add_count popcountByte w 0, foldl_add_count zeroBitsByte w 0,
    Nat.zero_add, Nat.zero_add, sum_counts w hv]

/-- Witness for C9 at the spec's scenario window: 5 one bits, 27 zero bits. -/
theorem claim9_bit_counts_witness :
    one_bit_count [58, 1, 0, 0] + zero_bit_count [58, 1, 0, 0] = 32 :=
  claim9_bit_counts [58, 1, 0, 0] (by unfold ValidWindow; decide)

/-- The digit text appended for bit `j` of byte `b` is exactly the character
of that bit. -/
theorem bitChar_data (b j : Nat) : (bitChar b j).data = [specDigit b j] := by
  unfold bitChar specDigit
  rw [Nat.and_one_is_mod]
  have ht : b.testBit j = decide ((b >>> j) % 2 = 1) := by
    rw [Nat.testBit_to_div_mod, Nat.shiftRight_eq_div_pow]
  rcases Nat.mod_two_eq_zero_or_one (b >>> j) with h | h <;> rw [h, ht, h] <;> rfl

/-- The inner digit loop of `bits_to_string` appends the byte's digits in
least-significant-first order. -/
theorem inner_lsb (b : Nat) (acc : String) :
    (List.range 8).foldl (fun r j => r ++ bitChar b j) acc = acc ++ specLsbDigits b := by
  apply String.ext
  show (acc ++ bitChar b 0 ++ bitChar b 1 ++ bitChar b 2 ++ bitChar b 3 ++ bitChar b 4
    ++ bitChar b 5 ++ bitChar b 6 ++ bitChar b 7).data = _
  simp [String.data_append, bitChar_data, specLsbDigits, List.range_succ]

/-- The inner digit loop of `print_bits` appends the byte's digits in
most-significant-first order. -/
theorem inner_msb (b : Nat) (acc : String) :
    ((List.range 8).reverse).foldl (fun r j => r ++ bitChar b j) acc = acc ++ specMsbDigits b := by
  apply String.ext
  show (acc ++ bitChar b 7 ++ bitChar b 6 ++ bitChar b 5 ++ bitChar b 4 ++ bitChar b 3
    ++ bitChar b 2 ++ bitChar b 1 ++ bitChar b 0).data = _
  simp [String.data_append, bitChar_data, specMsbDigits, List.range_succ]

/-- A left fold whose body appends a per-byte string emits the concatenation
of the per-byte strings. -/
theorem foldl_emit_data (g : Nat → String) (w : List Nat)
    (body : String → Nat → String) (hbody : ∀ a b, body a b = a ++ g b) :
    ∀ acc : String, (w.foldl body acc).data
      = acc.data ++ (w.map (fun b => (g b).data)).flatten := by
  induction w with
  | nil => intro acc; simp
  | cons b t ih =>
    intro acc
    rw [List.foldl_cons, hbody, ih]
    simp

/-- C7: `bits_to_string` emits, per byte cell in storage order, the 8 bit
digits least-significant-bit first followed by the separator, while
`print_bits` emits the 8 digits most-significant-bit first followed by the
separator — per byte the exact reverse digit order. -/
theorem claim7_bit_digit_orders (w : Window) (sep : String) :
    (bits_to_string w sep).data
      = (w.map (fun b => (specLsbDigits b).data ++ sep.data)).flatten ∧
    (print_bits w sep).data
      = (w.map (fun b => (specMsbDigits b).data ++ sep.data)).flatten ∧
    ∀ b, (specMsbDigits b).data = ((specLsbDigits b).data).reverse := by
  refine ⟨?_, ?_, ?_⟩
  · unfold bits_to_string
    rw [bpb_eq, foldl_emit_data (fun b => specLsbDigits b ++ sep) w _
      (fun a b => by rw [inner_lsb, String.append_assoc])]
    simp
  · unfold print_bits
    rw [bpb_eq, foldl_emit_data (fun b => specMsbDigits b ++ sep) w _
      (fun a b => by rw [inner_msb, String.append_assoc])]
    simp
  · intro b
    simp [specLsbDigits, specMsbDigits, List.range_succ]

/-- The value of the all-zero window is zero. -/
theorem toNatLE_replicate (m : Nat) : toNatLE (List.replicate m 0) = 0 := by
  induction m with
  | zero => rfl
  | succ n ih => simp [List.replicate_succ, toNatLE, ih]

/-- Zero-filling the high-index end does not change the represented value. -/
theorem toNatLE_append_zeros (xs : List Nat) (m : Nat) :
    toNatLE (xs ++ List.replicate m 0) = toNatLE xs := by
  induction xs with
  | nil => simpa using toNatLE_replicate m
  | cons b t ih => simp [toNatLE, ih]

/-- Prepending `m` zero cells multiplies the represented value by `256^m`. -/
theorem toNatLE_zeros_prepend (m : Nat) (xs : List Nat) :
    toNatLE (List.replicate m 0 ++ xs) = 256 ^ m * toNatLE xs := by
  induction m with
  | zero => simp [toNatLE]
  | succ n ih =>
    simp [List.replicate_succ, toNatLE, ih]
    ring

/-- Dropping the `m` low-order byte cells divides the represented value by
`256^m`. -/
theorem toNatLE_drop (w : Window) (hv : ValidWindow w) :
    ∀ m, toNatLE (w.drop m) = toNatLE w / 256 ^ m := by
  intro m
  induction m generalizing w with
  | zero => simp
  | succ n ih =>
    cases w with
    | nil => simp [toNatLE]
    | cons b t =>
      have hb : b < 256 := hv b (List.mem_cons_self b t)
      have ht : ValidWindow t := fun x hx => hv x (List.mem_cons_of_mem b hx)
      rw [List.drop_succ_cons, ih t ht]
      simp only [toNatLE]
      rw [show (256 : Nat) ^ (n + 1) = 256 * 256 ^ n by ring,
        ← Nat.div_div_eq_div_mul,
        Nat.add_mul_div_left _ _ (show 0 < 256 by norm_num),
        Nat.div_eq_of_lt hb, Nat.zero_add]

/-- Keeping only the `m` low-order byte cells reduces the represented value
modulo `256^m`. -/
theorem toNatLE_take (w : Window) (hv : ValidWindow w) :
    ∀ m, toNatLE (w.take m) = toNatLE w % 256 ^ m := by
  intro m
  induction m generalizing w with
  | zero => simp [toNatLE, Nat.mod_one]
  | succ n ih =>
    cases w with
    | nil => simp [toNatLE]
    | cons b t =>
      have hb : b < 256 := hv b (List.mem_cons_self b t)
      have ht : ValidWindow t := fun x hx => hv x (List.mem_cons_of_mem b hx)
      rw [List.take_succ_cons]
      simp only [toNatLE]
      rw [ih t ht, show (256 : Nat) ^ (n + 1) = 256 * 256 ^ n by ring]
      have hTm : toNatLE t % 256 ^ n < 256 ^ n :=
        Nat.mod_lt _ (pow_pos (by norm_num) n)
      conv_rhs => rw [Nat.add_mod, Nat.mul_mod_mul_left]
      rw [Nat.mod_eq_of_lt (show b < 256 * 256 ^ n by
          nlinarith [pow_pos (show 0 < 256 by norm_num) n]),
        Nat.mod_eq_of_lt (show b + 256 * (toNatLE t % 256 ^ n) < 256 * 256 ^ n by omega)]

/-- For a byte-aligned shift amount inside the window, `shift_left_bits` is
exactly the byte move toward index 0 with zero fill (its bit-carry pass is
skipped). -/
theorem shift_left_byte_aligned (w : Window) (k : Nat) (h8 : k % 8 = 0)
    (hpos : 0 < k) (hlt : k < w.length * 8) :
    shift_left_bits w k = w.drop (k / 8) ++ List.replicate (k / 8) 0 := by
  have hbs : 0 < k / 8 := by omega
  unfold shift_left_bits
  simp only [bpb_eq, h8]
  rw [if_neg (by omega), if_neg (by omega)]
  simp [hbs]

/-- For a byte-aligned shift amount inside the window, `shift_right_bits` is
exactly the byte move toward the high-index end with zero fill. -/
theorem shift_right_byte_aligned (w : Window) (k : Nat) (h8 : k % 8 = 0)
    (hpos : 0 < k) (hlt : k < w.length * 8) :
    shift_right_bits w k = List.replicate (k / 8) 0 ++ w.take (w.length - k / 8) := by
  have hbs : 0 < k / 8 := by omega
  unfold shift_right_bits
  simp only [bpb_eq, h8]
  rw [if_neg (by omega), if_neg (by omega)]
  simp [hbs]

/-- Bit-level reading of the byte-aligned `shift_left_bits`: bit `i` of the
result is old bit `i + k`, zero once `i + k` passes the window. -/
theorem bitAt_shift_left_aligned (w : Window) (k : Nat) (h8 : k % 8 = 0)
    (hpos : 0 < k) (hlt : k < w.length * 8) (i : Nat) :
    bitAt (shift_left_bits w k) i = (decide (i + k < w.length * 8) && bitAt w (i + k)) := by
  rw [shift_left_byte_aligned w k h8 hpos hlt]
  unfold bitAt
  simp only [bpb_eq]
  rw [List.getD_eq_getElem?_getD, List.getD_eq_getElem?_getD, List.getElem?_append,
    List.length_drop]
  rcases Nat.lt_or_ge (i / 8) (w.length - k / 8) with hq | hq
  · rw [if_pos hq, List.getElem?_drop]
    have h1 : (i + k) / 8 = k / 8 + i / 8 := by omega
    have h2 : (i + k) % 8 = i % 8 := by omega
    have h3 : i + k < w.length * 8 := by omega
    rw [h1, h2, decide_eq_true h3, Bool.true_and]
  · rw [if_neg (by omega)]
    have hfalse : ¬ (i + k < w.length * 8) := by omega
    by_cases hc : i / 8 - (w.length - k / 8) < k / 8 <;>
      simp [List.getElem?_replicate, hc, Nat.zero_testBit, hfalse]

/-- Bit-level reading of the byte-aligned `shift_right_bits`: bit `i` of the
result is old bit `i - k`, zero while `i < k`. -/
theorem bitAt_shift_right_aligned (w : Window) (k : Nat) (h8 : k % 8 = 0)
    (hpos : 0 < k) (hlt : k < w.length * 8) (i : Nat) (hi : i < w.length * 8) :
    bitAt (shift_right_bits w k) i = (decide (k ≤ i) && bitAt w (i - k)) := by
  rw [shift_right_byte_aligned w k h8 hpos hlt]
  unfold bitAt
  simp only [bpb_eq]
  rw [List.getD_eq_getElem?_getD, List.getD_eq_getElem?_getD, List.getElem?_append,
    List.length_replicate]
  rcases Nat.lt_or_ge (i / 8) (k / 8) with hq | hq
  · rw [if_pos hq]
    have hfalse : ¬ (k ≤ i) := by omega
    simp [List.getElem?_replicate, hq, Nat.zero_testBit, hfalse]
  · rw [if_neg (by omega), List.getElem?_take, if_pos (by omega)]
    have h1 : (i - k) / 8 = i / 8 - k / 8 := by omega
    have h2 : (i - k) % 8 = i % 8 := by omega
    have h3 : k ≤ i := by omega
    rw [h1, h2, decide_eq_true h3, Bool.true_and]

/-- A byte-aligned bit count turns the byte base 256 into the bit base 2. -/
theorem pow256_div8 (k : Nat) (h8 : k % 8 = 0) : (256 : Nat) ^ (k / 8) = 2 ^ k := by
  rw [show (256 : Nat) = 2 ^ 8 by norm_num, ← pow_mul]
  congr 1
  omega

/-- Numeric reading of the byte-aligned `shift_left_bits`: it divides the
represented value by `2^k`. -/
theorem toNatLE_shift_left_aligned (w : Window) (k : Nat) (hv : ValidWindow w)
    (h8 : k % 8 = 0) (hpos : 0 < k) (hlt : k < w.length * 8) :
    toNatLE (shift_left_bits w k) = toNatLE w / 2 ^ k := by
  rw [shift_left_byte_aligned w k h8 hpos hlt, toNatLE_append_zeros,
    toNatLE_drop w hv, pow256_div8 k h8]

/-- Numeric reading of the byte-aligned `shift_right_bits`: it multiplies the
represented value by `2^k` modulo the window size. -/
theorem toNatLE_shift_right_aligned (w : Window) (k : Nat) (hv : ValidWindow w)
    (h8 : k % 8 = 0) (hpos : 0 < k) (hlt : k < w.length * 8) :
    toNatLE (shift_right_bits w k) = (toNatLE w * 2 ^ k) % 2 ^ (w.length * 8) := by
  rw [shift_right_byte_aligned w k h8 hpos hlt, toNatLE_zeros_prepend,
    toNatLE_take w hv, ← Nat.mul_mod_mul_left]
  rw [show (256 : Nat) ^ (k / 8) * 256 ^ (w.length - k / 8) = 2 ^ (w.length * 8) by
    rw [← pow_add, show k / 8 + (w.length - k / 8) = w.length by omega,
      show (256 : Nat) = 2 ^ 8 by norm_num, ← pow_mul]
    congr 1
    omega]
  rw [pow256_div8 k h8, Nat.mul_comm]

/-- C1 (amended: restricted to byte-aligned shift amounts, `8 ∣ k`): for a
valid window and `0 < k < N*8` with `k % 8 = 0`, `shift_left_bits` moves bit
`i + k` into global bit index `i` (zero when `i + k ≥ N*8`), numerically
dividing the represented value by `2^k`, and `shift_right_bits` moves bit
`i - k` into index `i` (zero while `i < k`), numerically multiplying the
value by `2^k` modulo `2^(N*8)`. -/
theorem claim1_shift_byte_aligned (w : Window) (k : Nat) (hv : ValidWindow w)
    (h8 : k % 8 = 0) (hpos : 0 < k) (hlt : k < w.length * 8) :
    (∀ i, i < w.length * 8 →
      bitAt (shift_left_bits w k) i = (decide (i + k < w.length * 8) && bitAt w (i + k)) ∧
      bitAt (shift_right_bits w k) i = (decide (k ≤ i) && bitAt w (i - k))) ∧
    toNatLE (shift_left_bits w k) = toNatLE w / 2 ^ k ∧
    toNatLE (shift_right_bits w k) = (toNatLE w * 2 ^ k) % 2 ^ (w.length * 8) :=
  ⟨fun i hi => ⟨bitAt_shift_left_aligned w k h8 hpos hlt i,
      bitAt_shift_right_aligned w k h8 hpos hlt i hi⟩,
    toNatLE_shift_left_aligned w k hv h8 hpos hlt,
    toNatLE_shift_right_aligned w k hv h8 hpos hlt⟩

/-- C1 counterexample: on the one-byte window `[1]` with `k = 1`
(`0 < 1 < 8`), `shift_left_bits` yields `[2]` — value 2, bit 1 set — while
the claim demands bit `i` become old bit `i + 1` (so bit 1 clear) and the
value become `1 / 2 = 0`: the sub-byte carry pass of `shift_left_bits`
multiplies instead of divides. -/
theorem claim1_counterexample :
    shift_left_bits [1] 1 = [2] ∧
    bitAt (shift_left_bits [1] 1) 1 = true ∧ bitAt [1] (1 + 1) = false ∧
    toNatLE (shift_left_bits [1] 1) = 2 ∧ toNatLE [1] / 2 ^ 1 = 0 := by
  decide

/-- Witness for C1 (amended) at the spec's scenario window with `k = 8`. -/
theorem claim1_shift_byte_aligned_witness :
    toNatLE (shift_left_bits [58, 1, 0, 0] 8) = toNatLE [58, 1, 0, 0] / 2 ^ 8 ∧
    toNatLE (shift_right_bits [58, 1, 0, 0] 8) = (toNatLE [58, 1, 0, 0] * 2 ^ 8) % 2 ^ 32 ∧
    bitAt (shift_right_bits [58, 1, 0, 0] 8) 9 = bitAt [58, 1, 0, 0] 1 := by
  have h := claim1_shift_byte_aligned [58, 1, 0, 0] 8 (by unfold ValidWindow; decide)
    rfl (by decide) (by decide)
  refine ⟨h.2.1, h.2.2, ?_⟩
  have hb := (h.1 9 (by decide)).2
  simpa using hb

end IMD
